import Mathlib

/-!
Verification of the similarity-detection and clustering engine of `dedup.py`.

The Python source is shallowly embedded: perceptual hashes (imagehash
objects) are bit lists, hash distance is the Hamming distance that
`ImageHash.__sub__` computes, file-system facts (file size, content digest,
per-frame decode results) are carried as fields of an abstract `FileData`
record, and the mutable dict-based union-find is explicit state passing with
a fuel-bounded `find`.  Floating point in `_files_size_similar` is idealised
as exact rational arithmetic (`ratio <= 0.02` becomes `100*diff <= 2*max`).
-/

namespace Dedup

/-- `imagehash._binary_array_to_hex` helper: bit list as a big-endian binary
number (`int(bit_string, 2)`). -/
def bitsToNat (bs : List Bool) : Nat :=
  bs.foldl (fun acc b => 2 * acc + (if b then 1 else 0)) 0

/-- `ImageHash.__str__` via `imagehash._binary_array_to_hex`: the flattened
bits as a hex string zero-padded to `ceil(len/4)` digits. -/
def hashStr (h : List Bool) : String :=
  let width := (h.length + 3) / 4
  let digits := Nat.toDigits 16 (bitsToNat h)
  String.mk (List.replicate (width - digits.length) '0' ++ digits)

/-- `ImageHash.__sub__`: Hamming distance, the count of positions where the
two bit arrays differ. -/
def hashDist (a b : List Bool) : Nat :=
  (a.zip b).countP (fun p => p.1 != p.2)

/-- `MIN_HASH_AGREEMENT` constant from `dedup.py`. -/
def MIN_HASH_AGREEMENT : Nat := 4

/-- `ImageInfo` dataclass: four perceptual hashes, dimensions, frame count
and the file content digest. -/
structure ImageInfo where
  phash : List Bool
  ahash : List Bool
  dhash : List Bool
  colorhash : List Bool
  width : Nat
  height : Nat
  n_frames : Nat
  md5 : String
deriving DecidableEq, Repr

/-- The `zero_hash` string tested by `ImageInfo._has_degenerate_hash`. -/
def zero_hash : String := "0000000000000000"

/-- `ImageInfo._has_degenerate_hash`: counts how many of the phash, ahash
and dhash render as the all-zero hex string; degenerate when the count
is at least 3 (i.e. all three). -/
def ImageInfo.has_degenerate_hash (self : ImageInfo) : Bool :=
  let zero_count :=
    ([hashStr self.phash, hashStr self.ahash, hashStr self.dhash].filter
      (fun h => h = zero_hash)).length
  decide (3 ≤ zero_count)

/-- `ImageInfo.is_candidate`: returns `(is_candidate, agreements,
total_distance)`. -/
def ImageInfo.is_candidate (self other : ImageInfo) (threshold : Nat) :
    Bool × Nat × Nat :=
  if self.width ≠ other.width ∨ self.height ≠ other.height then
    (false, 0, 999)
  else if self.n_frames ≠ other.n_frames then
    (false, 0, 999)
  else
    let distances := [hashDist self.phash other.phash,
                      hashDist self.ahash other.ahash,
                      hashDist self.dhash other.dhash,
                      hashDist self.colorhash other.colorhash]
    let total_distance := distances.sum
    let agreements := (distances.filter (fun d => d ≤ threshold)).length
    if self.n_frames = 1 then
      let phash_dist := hashDist self.phash other.phash
      let ahash_dist := hashDist self.ahash other.ahash
      let dhash_dist := hashDist self.dhash other.dhash
      let chash_dist := hashDist self.colorhash other.colorhash
      if ahash_dist = 0 ∧ dhash_dist = 0 ∧ chash_dist = 0 ∧ phash_dist ≤ 10 then
        (true, agreements, total_distance)
      else if total_distance = 0 then
        (true, agreements, total_distance)
      else
        (false, agreements, total_distance)
    else
      (decide (MIN_HASH_AGREEMENT ≤ agreements), agreements, total_distance)

/-- `ImageInfo.is_animated`. -/
def ImageInfo.is_animated (self : ImageInfo) : Bool :=
  decide (1 < self.n_frames)

/-- One file of the scanned directory, carrying the results of the external
(file system / PIL) operations the engine performs on it: its name
(`path.name`), its size in bytes (`path.stat().st_size`), its content digest
(`_compute_md5`), the per-frame decode result (`_get_gif_frame_info`: `none`
models the `None` returned for static images or on decode failure), and the
decoded descriptor (`compute_image_info`: `none` models a failed decode). -/
structure FileData where
  name : String
  size : Nat
  md5 : String
  frames : Option (List (String × Nat))
  info : Option ImageInfo
deriving DecidableEq, Repr

/-- `_gifs_are_identical`: frame-by-frame comparison with an MD5 fallback
when either file does not expose multiple frames. -/
def gifs_are_identical (f1 f2 : FileData) : Bool :=
  match f1.frames, f2.frames with
  | some info1, some info2 =>
    if info1.length ≠ info2.length then false
    else decide (info1 = info2)
  | _, _ => decide (f1.md5 = f2.md5)

/-- `_files_size_similar`, with the float comparison
`abs(size1-size2)/max(size1,size2) <= 0.02` idealised over the rationals as
`100 * |size1-size2| <= 2 * max(size1, size2)`. -/
def files_size_similar (f1 f2 : FileData) : Bool :=
  let size1 := f1.size
  let size2 := f2.size
  if size1 = 0 ∨ size2 = 0 then decide (size1 = size2)
  else decide (100 * (max size1 size2 - min size1 size2) ≤ 2 * max size1 size2)

/-- `_verify_duplicate_pair`: frame verification for animated pairs, always
true for static pairs (the threshold argument is taken but, as in the
source, not consulted). -/
def verify_duplicate_pair (f1 : FileData) (info1 : ImageInfo)
    (f2 : FileData) (info2 : ImageInfo) (_threshold : Nat) : Bool :=
  if info1.is_animated ∧ info2.is_animated then gifs_are_identical f1 f2
  else true

/-- The decision made by the pair loop of `find_similar_groups` (lines
269-281): candidate check, then the file-size check for animated images,
then frame verification; the pair is unioned exactly when this holds. -/
def confirmPair (a b : FileData × ImageInfo) (threshold : Nat) : Bool :=
  let (is_cand, _, _) := a.2.is_candidate b.2 threshold
  if ¬ is_cand then false
  else if a.2.is_animated ∧ ¬ files_size_similar a.1 b.1 then false
  else verify_duplicate_pair a.1 a.2 b.1 b.2 threshold

/-- `UnionFind`: the Python `parent` dict initialises any key to itself on
first access, so it behaves exactly like a total function on `Nat` that is
the identity outside the touched keys. -/
structure UnionFind where
  parent : Nat → Nat

/-- `UnionFind.__init__`: the empty parent dict. -/
def UnionFind.init : UnionFind := ⟨fun x => x⟩

/-- `UnionFind.find` with path compression.  The Python recursion terminates
because parent chains are acyclic; the embedding makes that explicit with a
fuel argument, and the invariant proofs below show the fuel passed by the
callers is never exhausted. -/
def ufFind : Nat → UnionFind → Nat → Nat × UnionFind
  | 0, uf, x => (x, uf)
  | fuel+1, uf, x =>
    if uf.parent x = x then (x, uf)
    else
      let (r, uf') := ufFind fuel uf (uf.parent x)
      (r, ⟨fun y => if y = x then r else uf'.parent y⟩)

/-- `UnionFind.union`. -/
def ufUnion (fuel : Nat) (uf : UnionFind) (x y : Nat) : UnionFind :=
  let (px, uf1) := ufFind fuel uf x
  let (py, uf2) := ufFind fuel uf1 y
  if px ≠ py then ⟨fun z => if z = px then py else uf2.parent z⟩ else uf2

/-- The image-list construction at the top of `find_similar_groups`: decode
every file, dropping decode failures and degenerate descriptors. -/
def imagesOf (files : List FileData) : List (FileData × ImageInfo) :=
  files.filterMap fun file =>
    match file.info with
    | none => none
    | some info => if info.has_degenerate_hash then none else some (file, info)

/-- Fuel bound used by the embedding for every `find`/`union` call of one
`find_similar_groups` run over `n` images: at most `n*(n-1)/2` unions happen,
and each keeps parent chains no longer than one plus the number of unions
performed so far, so `n*n + 1` steps always reach the root. -/
def FUEL (n : Nat) : Nat := n * n + 1

/-- The pair decision of the clustering loop looked up by index. -/
def confirmsAt (images : List (FileData × ImageInfo)) (threshold i j : Nat) :
    Bool :=
  match images[i]?, images[j]? with
  | some a, some b => confirmPair a b threshold
  | _, _ => false

/-- Body of the inner loop of `find_similar_groups` for the pair `(i, j)`. -/
def pairStep (images : List (FileData × ImageInfo)) (threshold i : Nat)
    (uf : UnionFind) (j : Nat) : UnionFind :=
  if confirmsAt images threshold i j then
    ufUnion (FUEL images.length) uf i j
  else uf

/-- Inner loop `for j in range(i + 1, len(images))`. -/
def rowFold (images : List (FileData × ImageInfo)) (threshold : Nat)
    (uf : UnionFind) (i : Nat) : UnionFind :=
  (List.range' (i + 1) (images.length - (i + 1))).foldl
    (pairStep images threshold i) uf

/-- Outer loop `for i, (path_i, info_i) in enumerate(images)`: the
initialising `uf.find(i)` call followed by the inner pair loop. -/
def clusterFold (images : List (FileData × ImageInfo)) (threshold : Nat) :
    UnionFind :=
  (List.range images.length).foldl
    (fun uf i => rowFold images threshold ((ufFind (FUEL images.length) uf i).2) i)
    UnionFind.init

/-- `clusters.setdefault`-style insertion: append `x` to the bucket of
`root`, creating the bucket at the end on first use (Python dicts preserve
insertion order). -/
def addCluster (acc : List (Nat × List (FileData × ImageInfo))) (root : Nat)
    (x : FileData × ImageInfo) : List (Nat × List (FileData × ImageInfo)) :=
  match acc with
  | [] => [(root, [x])]
  | (r, xs) :: rest =>
    if r = root then (r, xs ++ [x]) :: rest
    else (r, xs) :: addCluster rest root x

/-- The grouping loop of `find_similar_groups`: one `uf.find(i)` per image
(threading the mutated union-find through) and insertion into the ordered
cluster dict. -/
def buildClusters (images : List (FileData × ImageInfo)) (uf : UnionFind)
    (fuel : Nat) : List (Nat × List (FileData × ImageInfo)) × UnionFind :=
  images.enum.foldl
    (fun st p =>
      let (root, uf') := ufFind fuel st.2 p.1
      (addCluster st.1 root p.2, uf'))
    ([], uf)

/-- `find_similar_groups`. -/
def find_similar_groups (files : List FileData) (threshold : Nat) :
    List (List (FileData × ImageInfo)) :=
  let images := imagesOf files
  if images.isEmpty then []
  else
    let uf := clusterFold images threshold
    let clusters := (buildClusters images uf (FUEL images.length)).1
    (clusters.map Prod.snd).filter (fun group => 1 < group.length)

/-- Python's string `<=`: lexicographic comparison of the code-point
sequences (a strict prefix compares smaller). -/
def charListLe : List Char → List Char → Bool
  | [], _ => true
  | _ :: _, [] => false
  | a :: as, b :: bs =>
    if a.val.toNat < b.val.toNat then true
    else if b.val.toNat < a.val.toNat then false
    else charListLe as bs

/-- `str.lower()` on a file name, applied per character (file names here are
ASCII, where Python's `lower` is exactly the per-character fold). -/
def pyLower (s : String) : String := String.mk (s.data.map Char.toLower)

/-- The sort key `lambda x: x[0].name.lower()` of `deduplicate`, as its
code-point sequence. -/
def sortKey (x : FileData × ImageInfo) : List Char := (pyLower x.1.name).data

/-- Stable insertion for the embedding of Python's stable `sorted`. -/
def insertByName (x : FileData × ImageInfo) :
    List (FileData × ImageInfo) → List (FileData × ImageInfo)
  | [] => [x]
  | y :: ys =>
    if charListLe (sortKey x) (sortKey y) then x :: y :: ys
    else y :: insertByName x ys

/-- `sorted(group, key=lambda x: x[0].name.lower())`: a stable sort by the
case-folded file name. -/
def sortByName : List (FileData × ImageInfo) → List (FileData × ImageInfo)
  | [] => []
  | x :: xs => insertByName x (sortByName xs)

/-- `min(a for _, a, _ in agreements_info)` over the removal list; `none`
models the `ValueError` Python raises on an empty sequence. -/
def minAgreements (keep : FileData × ImageInfo)
    (remove : List (FileData × ImageInfo)) (threshold : Nat) : Option Nat :=
  ((remove.map (fun p => keep.2.is_candidate p.2 threshold)).map
    (fun r => r.2.1)).min?

/-- One iteration of the `for group in groups` loop of `deduplicate`.
State: `(total_removed, names unlinked so far)`.  `Except.error` models the
uncaught exceptions: `sorted_group[0]` on an empty group (IndexError) and
`min()` over an empty sequence (ValueError); both fire before any `unlink`
of the group. -/
def dedupStep (threshold : Nat) (dry_run : Bool) (st : Nat × List String)
    (group : List (FileData × ImageInfo)) : Except Unit (Nat × List String) :=
  match sortByName group with
  | [] => .error ()
  | keep :: remove =>
    match minAgreements keep remove threshold with
    | none => .error ()
    | some _ =>
      if dry_run then .ok st
      else .ok (st.1 + remove.length, st.2 ++ remove.map (fun p => p.1.name))

/-- The group loop of `deduplicate`, stopping at the first exception and
reporting the names unlinked before it. -/
def dedupGo (threshold : Nat) (dry_run : Bool) :
    List (List (FileData × ImageInfo)) → Nat × List String →
    Except Unit Nat × List String
  | [], st => (.ok st.1, st.2)
  | g :: gs, st =>
    match dedupStep threshold dry_run st g with
    | .error e => (.error e, st.2)
    | .ok st' => dedupGo threshold dry_run gs st'

/-- `deduplicate`: returns the `(groups, removed)` counts (or the exception)
together with the list of file names unlinked from disk. -/
def deduplicate (groups : List (List (FileData × ImageInfo)))
    (dry_run : Bool) (threshold : Nat) :
    Except Unit (Nat × Nat) × List String :=
  match dedupGo threshold dry_run groups (0, []) with
  | (.error e, deleted) => (.error e, deleted)
  | (.ok removed, deleted) =>
    if dry_run then
      (.ok (groups.length, (groups.map (fun g => g.length - 1)).sum), deleted)
    else
      (.ok (groups.length, removed), deleted)

/-- Ghost invariant relating a union-find parent map to a representative
assignment `rep`: `rep` is idempotent, parents stay inside their class,
parent-chain fixpoints are exactly the representatives, and every chain
reaches its representative within `B` steps. -/
def Inv (p : Nat → Nat) (rep : Nat → Nat) (B : Nat) : Prop :=
  (∀ x, rep (rep x) = rep x) ∧
  (∀ x, rep (p x) = rep x) ∧
  (∀ x, p x = x → rep x = x) ∧
  (∀ x, p (rep x) = rep x) ∧
  (∀ x, ∃ k, k ≤ B ∧ p^[k] x = rep x)

/-- Effect of `union x y` on the representative assignment: the class of `x`
is absorbed into the class of `y`. -/
def repJoin (rep : Nat → Nat) (x y : Nat) : Nat → Nat :=
  fun z => if rep z = rep x then rep y else rep z

/-- Pointwise update of a parent map (`self.parent[a] = v`). -/
def updateFn (p : Nat → Nat) (a v : Nat) : Nat → Nat :=
  fun z => if z = a then v else p z

/-- Redirection of every representative `a` to `b`: the representative map
after `union` links root `a` under root `b`. -/
def absorbFn (rep : Nat → Nat) (a b : Nat) : Nat → Nat :=
  fun z => if rep z = a then b else rep z

/-- Equivalence closure of a pair relation, used to characterise which
indices the clustering loop merges. -/
inductive Linked (R : Nat → Nat → Prop) : Nat → Nat → Prop
  | base : R x y → Linked R x y
  | refl (x) : Linked R x x
  | symm : Linked R x y → Linked R y x
  | trans : Linked R x y → Linked R y z → Linked R x z

/-- The pairs `(i, j)` the clustering loop unions: visited in order `i < j`
within bounds, with the loop's confirmation decision true. -/
def ConfirmedRel (images : List (FileData × ImageInfo)) (threshold : Nat)
    (i j : Nat) : Prop :=
  i < j ∧ j < images.length ∧ confirmsAt images threshold i j = true

/-- Full specification carried through the clustering loop: the ghost `rep`
matches the union-find state, and equal representatives only arise from
chains of confirmed pairs. -/
def UFSpec (images : List (FileData × ImageInfo)) (threshold : Nat)
    (uf : UnionFind) (rep : Nat → Nat) (B : Nat) : Prop :=
  Inv uf.parent rep B ∧
  ∀ z w, rep z = rep w → Linked (ConfirmedRel images threshold) z w

/-- First-match lookup in the ordered cluster association list. -/
def clLookup (root : Nat) :
    List (Nat × List (FileData × ImageInfo)) →
    Option (List (FileData × ImageInfo))
  | [] => none
  | (r, g) :: rest => if r = root then some g else clLookup root rest

/-- The members whose index maps to `root` under `rep`, in index order: the
bucket contents produced by the grouping loop. -/
def selectRoot (rep : Nat → Nat) (L : List (Nat × (FileData × ImageInfo)))
    (root : Nat) : List (FileData × ImageInfo) :=
  (L.filter (fun p => decide (rep p.1 = root))).map Prod.snd

/-- Ghost version of the grouping loop: the cluster dict built with the
already-computed representative of each index (what `buildClusters` computes,
as the invariant proof shows). -/
def clFold (rep : Nat → Nat) (L : List (Nat × (FileData × ImageInfo)))
    (acc : List (Nat × List (FileData × ImageInfo))) :
    List (Nat × List (FileData × ImageInfo)) :=
  L.foldl (fun a pr => addCluster a (rep pr.1) pr.2) acc

/-- The structural key `is_candidate` gates on: width, height, frame
count. -/
def dimKey (x : FileData × ImageInfo) : Nat × Nat × Nat :=
  (x.2.width, x.2.height, x.2.n_frames)

/-- A hash equal to the canonical all-zero pattern: every bit is zero. -/
def allZeroHash (h : List Bool) : Bool := h.all (fun b => b = false)

/-- How many of the four hashes of a descriptor are the all-zero pattern. -/
def zeroHashCount (i : ImageInfo) : Nat :=
  ([i.phash, i.ahash, i.dhash, i.colorhash].filter allZeroHash).length

/-- Claim C1 as stated: an image at least three of whose four hashes
(frequency, average, gradient, color) are the canonical all-zero pattern
appears in no group returned by `find_similar_groups`. -/
def C1ClaimStatement : Prop :=
  ∀ (files : List FileData) (t : Nat) (f : FileData) (i : ImageInfo),
    f ∈ files → f.info = some i → 3 ≤ zeroHashCount i →
    ∀ G ∈ find_similar_groups files t, ∀ x ∈ G, x.1 ≠ f

/-- 64 zero bits: the hash whose hex string is the canonical
`"0000000000000000"`. -/
def hashZ64 : List Bool := List.replicate 64 false

/-- Sample descriptor whose average, gradient and color hashes are all-zero
but whose frequency hash is not: three of its four hashes are zero. -/
def cxInfo : ImageInfo :=
  ⟨[true], [false], [false], [false], 10, 10, 1, "m1"⟩

/-- Sample file carrying `cxInfo`. -/
def cxFileA : FileData := ⟨"a.png", 100, "m1", none, some cxInfo⟩

/-- Second sample file sharing the hashes of `cxFileA`. -/
def cxFileB : FileData := ⟨"b.png", 100, "m1", none, some cxInfo⟩

/-- Third sample file sharing the hashes of `cxFileA`. -/
def cxFileC : FileData := ⟨"c.png", 100, "m1", none, some cxInfo⟩

/-- Descriptor that is degenerate for the code: frequency, average and
gradient hashes render as the all-zero hex string. -/
def degInfo : ImageInfo := ⟨hashZ64, hashZ64, hashZ64, [true], 10, 10, 1, "m2"⟩

/-- File carrying the degenerate descriptor. -/
def degFile : FileData := ⟨"d.png", 50, "m2", none, some degInfo⟩

/-- Second file sharing the degenerate descriptor's zero hashes. -/
def degFile2 : FileData := ⟨"e.png", 50, "m2", none, some degInfo⟩

/-- Sample animated descriptor (three frames). -/
def animInfo : ImageInfo :=
  ⟨[true, false], [false], [false], [false], 12, 12, 3, "x1"⟩

/-- Animated sample file with frame records. -/
def animFileA : FileData :=
  ⟨"g1.gif", 1000, "x1", some [("h1", 40), ("h2", 40), ("h3", 40)], some animInfo⟩

/-- Animated sample file: same frames as `animFileA`, size within 2%. -/
def animFileB : FileData :=
  ⟨"g2.gif", 1010, "x2", some [("h1", 40), ("h2", 40), ("h3", 40)], some animInfo⟩

/-- Animated sample file: same frames except one changed duration. -/
def animFileC : FileData :=
  ⟨"g3.gif", 1005, "x3", some [("h1", 40), ("h2", 50), ("h3", 40)], some animInfo⟩

/-- Descriptor for the canonical-selection example group. -/
def znInfo : ImageInfo := ⟨[true], [true], [true], [true], 4, 4, 1, "zz"⟩

/-- `"Zeta.png"` member of the canonical-selection example. -/
def fZeta : FileData := ⟨"Zeta.png", 10, "z1", none, some znInfo⟩

/-- `"apple.png"` member of the canonical-selection example. -/
def fApple : FileData := ⟨"apple.png", 10, "z2", none, some znInfo⟩

/-- `"Banana.png"` member of the canonical-selection example. -/
def fBanana : FileData := ⟨"Banana.png", 10, "z3", none, some znInfo⟩

/-! ### Lemmas about the pairwise judge -/

theorem hashDist_self (h : List Bool) : hashDist h h = 0 := by
  induction h with
  | nil => rfl
  | cons a t ih => simpa [hashDist, List.countP_cons] using ih

theorem is_candidate_self (i : ImageInfo) (t : Nat) :
    i.is_candidate i t = (true, 4, 0) := by
  unfold ImageInfo.is_candidate
  simp only [ne_eq, not_true_eq_false, false_or, or_self, if_false,
    hashDist_self, ite_false]
  by_cases h : i.n_frames = 1 <;>
    simp [h, MIN_HASH_AGREEMENT]

theorem confirmPair_eq (a b : FileData × ImageInfo) (t : Nat) :
    confirmPair a b t =
      if ¬ (a.2.is_candidate b.2 t).1 then false
      else if a.2.is_animated ∧ ¬ files_size_similar a.1 b.1 then false
      else verify_duplicate_pair a.1 a.2 b.1 b.2 t := by
  unfold confirmPair
  cases h : a.2.is_candidate b.2 t
  rfl

theorem is_candidate_mismatch (a b : ImageInfo) (t : Nat)
    (h : a.width ≠ b.width ∨ a.height ≠ b.height ∨ a.n_frames ≠ b.n_frames) :
    a.is_candidate b t = (false, 0, 999) := by
  unfold ImageInfo.is_candidate
  rcases h with h | h | h
  · rw [if_pos (Or.inl h)]
  · rw [if_pos (Or.inr h)]
  · by_cases hd : a.width ≠ b.width ∨ a.height ≠ b.height
    · rw [if_pos hd]
    · rw [if_neg hd, if_pos h]

/-- C2: for every pair of descriptors with equal width and height and frame
count 1 on both sides, `is_candidate` accepts exactly when either the
average, gradient and color hash distances are all zero and the frequency
distance is at most 10, or all four distances are zero; every other
combination is rejected whatever the threshold. -/
theorem C2_static_candidacy (a b : ImageInfo) (t : Nat)
    (hw : a.width = b.width) (hh : a.height = b.height)
    (ha : a.n_frames = 1) (hb : b.n_frames = 1) :
    (a.is_candidate b t).1 = true ↔
      ((hashDist a.ahash b.ahash = 0 ∧ hashDist a.dhash b.dhash = 0 ∧
        hashDist a.colorhash b.colorhash = 0 ∧ hashDist a.phash b.phash ≤ 10) ∨
       (hashDist a.phash b.phash = 0 ∧ hashDist a.ahash b.ahash = 0 ∧
        hashDist a.dhash b.dhash = 0 ∧ hashDist a.colorhash b.colorhash = 0)) := by
  unfold ImageInfo.is_candidate
  rw [if_neg (by simp [hw, hh]), if_neg (by simp [ha, hb]), if_pos ha]
  simp only [List.sum_cons, List.sum_nil]
  split_ifs with h1 h2
  · exact iff_of_true rfl (Or.inl h1)
  · exact iff_of_true rfl (Or.inr ⟨by omega, by omega, by omega, by omega⟩)
  · refine iff_of_false (by simp) ?_
    rintro (h | h)
    · exact h1 ⟨h.1, h.2.1, h.2.2.1, h.2.2.2⟩
    · exact h2 (by omega)

/-- Witness for C2 at a concrete static pair. -/
theorem C2_static_candidacy_witness :
    (cxInfo.is_candidate cxInfo 0).1 = true :=
  (C2_static_candidacy cxInfo cxInfo 0 rfl rfl rfl rfl).mpr
    (Or.inl (by decide))

/-- C4: for an animated pair, the confirmation decision of
`_verify_duplicate_pair` holds exactly when the ordered per-frame
(hash, duration) sequences are equal, and when either file lacks a frame
decode it holds exactly when the whole-file digests are equal. -/
theorem C4_animated_confirmation (f1 f2 : FileData) (i1 i2 : ImageInfo)
    (t : Nat)
    (h1 : i1.is_animated = true) (h2 : i2.is_animated = true) :
    (∀ l1 l2, f1.frames = some l1 → f2.frames = some l2 →
      (verify_duplicate_pair f1 i1 f2 i2 t = true ↔ l1 = l2)) ∧
    ((f1.frames = none ∨ f2.frames = none) →
      (verify_duplicate_pair f1 i1 f2 i2 t = true ↔ f1.md5 = f2.md5)) := by
  have hv : verify_duplicate_pair f1 i1 f2 i2 t = gifs_are_identical f1 f2 := by
    unfold verify_duplicate_pair
    rw [if_pos ⟨h1, h2⟩]
  constructor
  · intro l1 l2 hl1 hl2
    rw [hv]
    unfold gifs_are_identical
    rw [hl1, hl2]
    show (if l1.length ≠ l2.length then false else decide (l1 = l2)) = true ↔
      l1 = l2
    split_ifs with hlen
    · exact iff_of_false (by simp) fun he => hlen (by rw [he])
    · simp
  · intro hn
    rw [hv]
    unfold gifs_are_identical
    rcases hn with hn | hn
    · rw [hn]
      cases f2.frames <;> simp
    · rw [hn]
      cases f1.frames <;> simp

/-- Witness for C4: equal frame sequences are confirmed, and a single
changed duration is rejected. -/
theorem C4_animated_confirmation_witness :
    verify_duplicate_pair animFileA animInfo animFileB animInfo 0 = true ∧
    ¬ verify_duplicate_pair animFileA animInfo animFileC animInfo 0 = true := by
  constructor
  · exact ((C4_animated_confirmation animFileA animFileB animInfo animInfo
      0 rfl rfl).1 _ _ rfl rfl).mpr rfl
  · intro hv
    have := ((C4_animated_confirmation animFileA animFileC animInfo animInfo
      0 rfl rfl).1 _ _ rfl rfl).mp hv
    simp at this

/-- C5: an animated pair passes the clustering loop's decision only if the
file sizes are within the 2% ratio (zero-byte files only matching zero-byte
files), and for a static pair the decision ignores file sizes entirely. -/
theorem C5_size_gate :
    (∀ (a b : FileData × ImageInfo) (t : Nat), a.2.is_animated = true →
       confirmPair a b t = true → files_size_similar a.1 b.1 = true) ∧
    (∀ f1 f2 : FileData, files_size_similar f1 f2 = true ↔
       (((f1.size = 0 ∨ f2.size = 0) ∧ f1.size = f2.size) ∨
        (f1.size ≠ 0 ∧ f2.size ≠ 0 ∧
          100 * (max f1.size f2.size - min f1.size f2.size) ≤
            2 * max f1.size f2.size))) ∧
    (∀ (fa fb : FileData) (ia ib : ImageInfo) (t s1 s2 : Nat),
       ia.n_frames = 1 →
       confirmPair ({fa with size := s1}, ia) ({fb with size := s2}, ib) t =
         confirmPair (fa, ia) (fb, ib) t) := by
  refine ⟨?_, ?_, ?_⟩
  · intro a b t hanim hconf
    rw [confirmPair_eq] at hconf
    by_cases hs : files_size_similar a.1 b.1 = true
    · exact hs
    · exfalso
      by_cases hcand : (a.2.is_candidate b.2 t).1 = true
      · rw [if_neg (by simp [hcand]), if_pos ⟨hanim, hs⟩] at hconf
        exact Bool.false_ne_true hconf
      · rw [if_pos hcand] at hconf
        exact Bool.false_ne_true hconf
  · intro f1 f2
    simp only [files_size_similar]
    split_ifs with h
    · simp only [decide_eq_true_eq]
      constructor
      · intro he
        exact Or.inl ⟨h, he⟩
      · rintro (⟨_, he⟩ | ⟨h1, h2, _⟩)
        · exact he
        · rcases h with h | h
          · exact absurd h h1
          · exact absurd h h2
    · simp only [decide_eq_true_eq]
      constructor
      · intro hle
        push_neg at h
        exact Or.inr ⟨h.1, h.2, hle⟩
      · rintro (⟨hz, _⟩ | ⟨_, _, hle⟩)
        · exact absurd hz h
        · exact hle
  · intro fa fb ia ib t s1 s2 hstatic
    have hanim : ia.is_animated = false := by
      simp [ImageInfo.is_animated, hstatic]
    rw [confirmPair_eq, confirmPair_eq]
    simp only [hanim, verify_duplicate_pair, Bool.false_eq_true, false_and,
      if_false, ite_false]

/-- Witness for C5 at a concrete confirmed animated pair. -/
theorem C5_size_gate_witness :
    files_size_similar animFileA animFileB = true :=
  C5_size_gate.1 (animFileA, animInfo) (animFileB, animInfo) 0
    (by decide) (by decide)

/-- C7: a descriptor compared against an identical copy of itself yields
`(true, 4, 0)` for every threshold, and a pair of files with identical
content fields passes the whole clustering decision (size check and frame
verification included). -/
theorem C7_reflexivity (f g : FileData) (i : ImageInfo) (t : Nat)
    (hs : g.size = f.size) (hm : g.md5 = f.md5) (hf : g.frames = f.frames) :
    i.is_candidate i t = (true, 4, 0) ∧ confirmPair (f, i) (g, i) t = true := by
  refine ⟨is_candidate_self i t, ?_⟩
  have hsize : files_size_similar f g = true := by
    simp only [files_size_similar, hs]
    split_ifs with h
    · simp
    · simp
  have hverify : verify_duplicate_pair f i g i t = true := by
    unfold verify_duplicate_pair
    split_ifs with h
    · unfold gifs_are_identical
      rw [hf, hm]
      cases f.frames <;> simp
    · rfl
  rw [confirmPair_eq]
  rw [if_neg (by simp [is_candidate_self])]
  rw [if_neg (by simp [hsize])]
  exact hverify

/-- Witness for C7 at a concrete pair of content-identical files. -/
theorem C7_reflexivity_witness :
    cxInfo.is_candidate cxInfo 5 = (true, 4, 0) ∧
    confirmPair (cxFileA, cxInfo) (cxFileB, cxInfo) 5 = true :=
  C7_reflexivity cxFileA cxFileB cxInfo 5 rfl rfl rfl

/-! ### Union-find invariant machinery -/

theorem Inv_init : Inv (fun x => x) (fun x => x) 0 :=
  ⟨fun _ => rfl, fun _ => rfl, fun _ h => h, fun _ => rfl,
   fun _ => ⟨0, Nat.le_refl 0, rfl⟩⟩

theorem Inv_mono {p rep : Nat → Nat} {B B' : Nat} (hB : B ≤ B')
    (hI : Inv p rep B) : Inv p rep B' := by
  obtain ⟨h1, h2, h3, h4, h5⟩ := hI
  refine ⟨h1, h2, h3, h4, fun x => ?_⟩
  obtain ⟨k, hk, he⟩ := h5 x
  exact ⟨k, hk.trans hB, he⟩

theorem Inv_congr {p rep rep' : Nat → Nat} {B : Nat}
    (h : ∀ z, rep z = rep' z) (hI : Inv p rep B) : Inv p rep' B := by
  have he : rep = rep' := funext h
  rwa [he] at hI

theorem updateFn_same (p : Nat → Nat) (a v : Nat) : updateFn p a v a = v :=
  if_pos rfl

theorem updateFn_other (p : Nat → Nat) {a : Nat} (v : Nat) {z : Nat}
    (h : z ≠ a) : updateFn p a v z = p z :=
  if_neg h

theorem absorbFn_pos (rep : Nat → Nat) {a : Nat} (b : Nat) {z : Nat}
    (h : rep z = a) : absorbFn rep a b z = b :=
  if_pos h

theorem absorbFn_neg (rep : Nat → Nat) {a : Nat} (b : Nat) {z : Nat}
    (h : rep z ≠ a) : absorbFn rep a b z = rep z :=
  if_neg h

/-- Pointing one element directly at its class representative keeps the
reach bound: the redirected chains are never longer. -/
theorem reach_update_to_root (p rep : Nat → Nat) (x : Nat)
    (h2 : ∀ z, rep (p z) = rep z) :
    ∀ m z, p^[m] z = rep z →
      ∃ k, k ≤ m ∧ (updateFn p x (rep x))^[k] z = rep z := by
  intro m
  induction m with
  | zero => exact fun z he => ⟨0, Nat.le_refl 0, he⟩
  | succ m ih =>
    intro z he
    by_cases hzx : z = x
    · subst hzx
      refine ⟨1, by omega, ?_⟩
      rw [Function.iterate_one, updateFn_same]
    · rw [Function.iterate_succ_apply] at he
      have he' : p^[m] (p z) = rep (p z) := by rw [h2]; exact he
      obtain ⟨k, hk, hke⟩ := ih (p z) he'
      refine ⟨k + 1, by omega, ?_⟩
      rw [Function.iterate_succ_apply, updateFn_other p (rep x) hzx]
      rw [h2 z] at hke
      exact hke

/-- Path compression step: redirecting a non-representative element to its
representative preserves the invariant with the same bound. -/
theorem Inv_setToRoot {p rep : Nat → Nat} {B x : Nat}
    (hI : Inv p rep B) (hx : rep x ≠ x) :
    Inv (updateFn p x (rep x)) rep B := by
  obtain ⟨h1, h2, h3, h4, h5⟩ := hI
  refine ⟨h1, ?_, ?_, ?_, ?_⟩
  · intro z
    by_cases hz : z = x
    · subst hz
      rw [updateFn_same]
      exact h1 z
    · rw [updateFn_other p (rep x) hz]
      exact h2 z
  · intro z hz
    by_cases hzx : z = x
    · subst hzx
      rw [updateFn_same] at hz
      exact hz
    · rw [updateFn_other p (rep x) hzx] at hz
      exact h3 z hz
  · intro z
    have hroot : rep z ≠ x := by
      intro he
      have hp := h4 z
      rw [he] at hp
      exact hx (h3 x hp)
    rw [updateFn_other p (rep x) hroot]
    exact h4 z
  · intro z
    obtain ⟨m, hm, he⟩ := h5 z
    obtain ⟨k, hk, hke⟩ := reach_update_to_root p rep x h2 m z he
    exact ⟨k, hk.trans hm, hke⟩

/-- Chains of a class other than `a`'s are untouched by `union`'s pointer
update. -/
theorem reach_update_other (p rep : Nat → Nat) (a b : Nat)
    (h2 : ∀ z, rep (p z) = rep z) (ha : rep a = a) :
    ∀ m z, p^[m] z = rep z → rep z ≠ a →
      (updateFn p a b)^[m] z = rep z := by
  intro m
  induction m with
  | zero => exact fun z he _ => he
  | succ m ih =>
    intro z he hza
    have hzxa : z ≠ a := fun hc => hza (by rw [hc, ha])
    rw [Function.iterate_succ_apply] at he
    rw [Function.iterate_succ_apply, updateFn_other p b hzxa]
    have he' : p^[m] (p z) = rep (p z) := by rw [h2]; exact he
    have hza' : rep (p z) ≠ a := by rw [h2]; exact hza
    have hres := ih (p z) he' hza'
    rw [h2 z] at hres
    exact hres

/-- Chains of `a`'s class get redirected to `b` by `union`'s pointer update,
with at most one extra step. -/
theorem reach_update_absorbed (p : Nat → Nat) (a b : Nat) :
    ∀ m z, p^[m] z = a →
      ∃ k, k ≤ m + 1 ∧ (updateFn p a b)^[k] z = b := by
  intro m
  induction m with
  | zero =>
    intro z he
    rw [Function.iterate_zero_apply] at he
    subst he
    exact ⟨1, by omega, by rw [Function.iterate_one, updateFn_same]⟩
  | succ m ih =>
    intro z he
    by_cases hza : z = a
    · subst hza
      exact ⟨1, by omega, by rw [Function.iterate_one, updateFn_same]⟩
    · rw [Function.iterate_succ_apply] at he
      obtain ⟨k, hk, hke⟩ := ih (p z) he
      refine ⟨k + 1, by omega, ?_⟩
      rw [Function.iterate_succ_apply, updateFn_other p b hza]
      exact hke

/-- `union`'s root-redirect preserves the invariant: `a`'s class is absorbed
into `b`'s, and the reach bound grows by one. -/
theorem Inv_merge {p rep : Nat → Nat} {B : Nat} {a b : Nat}
    (hI : Inv p rep B) (ha : rep a = a) (hb : rep b = b)
    (hpa : p a = a) (hpb : p b = b) (hab : a ≠ b) :
    Inv (updateFn p a b) (absorbFn rep a b) (B + 1) := by
  obtain ⟨h1, h2, h3, h4, h5⟩ := hI
  have hbna : rep b ≠ a := by rw [hb]; exact fun hc => hab hc.symm
  refine ⟨?_, ?_, ?_, ?_, ?_⟩
  · intro z
    by_cases hz : rep z = a
    · rw [absorbFn_pos rep b hz, absorbFn_neg rep b hbna]
      exact hb
    · rw [absorbFn_neg rep b hz,
        absorbFn_neg rep b (show rep (rep z) ≠ a by rw [h1 z]; exact hz)]
      exact h1 z
  · intro z
    by_cases hz : z = a
    · subst hz
      rw [updateFn_same, absorbFn_neg rep b hbna, hb,
        absorbFn_pos rep b (by rw [ha])]
    · rw [updateFn_other p b hz]
      show absorbFn rep a b (p z) = absorbFn rep a b z
      simp only [absorbFn, h2 z]
  · intro z hz
    by_cases hza : z = a
    · subst hza
      rw [updateFn_same] at hz
      exact absurd hz.symm hab
    · rw [updateFn_other p b hza] at hz
      have hrz : rep z = z := h3 z hz
      rw [absorbFn_neg rep b (by rw [hrz]; exact hza)]
      exact hrz
  · intro z
    by_cases hz : rep z = a
    · rw [absorbFn_pos rep b hz,
        updateFn_other p b (show b ≠ a from fun hc => hab hc.symm)]
      exact hpb
    · rw [absorbFn_neg rep b hz, updateFn_other p b hz]
      exact h4 z
  · intro z
    obtain ⟨m, hm, he⟩ := h5 z
    by_cases hz : rep z = a
    · rw [hz] at he
      obtain ⟨k, hk, hke⟩ := reach_update_absorbed p a b m z he
      refine ⟨k, by omega, ?_⟩
      rw [absorbFn_pos rep b hz]
      exact hke
    · refine ⟨m, by omega, ?_⟩
      rw [absorbFn_neg rep b hz]
      exact reach_update_other p rep a b h2 ha m z he hz

theorem UnionFind_parent_mk (p : Nat → Nat) : (UnionFind.mk p).parent = p :=
  rfl

/-- Specification of `find`: with the invariant and enough fuel it returns
the representative and preserves the invariant (same `rep`, same bound). -/
theorem ufFind_spec :
    ∀ (k fuel : Nat) (p rep : Nat → Nat) (B x : Nat),
      Inv p rep B → p^[k] x = rep x → k < fuel →
      ∃ p', ufFind fuel ⟨p⟩ x = (rep x, ⟨p'⟩) ∧ Inv p' rep B := by
  intro k
  induction k with
  | zero =>
    intro fuel p rep B x hI he hf
    obtain ⟨f', rfl⟩ : ∃ f', fuel = f' + 1 := ⟨fuel - 1, by omega⟩
    have hx : rep x = x := he.symm
    have hroot : p x = x := by
      have hp := hI.2.2.2.1 x
      rwa [hx] at hp
    refine ⟨p, ?_, hI⟩
    unfold ufFind
    rw [UnionFind_parent_mk, if_pos hroot, hx]
  | succ k ih =>
    intro fuel p rep B x hI he hf
    obtain ⟨f', rfl⟩ : ∃ f', fuel = f' + 1 := ⟨fuel - 1, by omega⟩
    by_cases hroot : p x = x
    · have hx : rep x = x := hI.2.2.1 x hroot
      refine ⟨p, ?_, hI⟩
      unfold ufFind
      rw [UnionFind_parent_mk, if_pos hroot, hx]
    · have hrx : rep x ≠ x := by
        intro hc
        have hp := hI.2.2.2.1 x
        rw [hc] at hp
        exact hroot hp
      have he' : p^[k] (p x) = rep (p x) := by
        rw [hI.2.1 x, ← Function.iterate_succ_apply]
        exact he
      obtain ⟨p1, hp1, hI1⟩ := ih f' p rep B (p x) hI he' (by omega)
      refine ⟨updateFn p1 x (rep x), ?_, Inv_setToRoot hI1 hrx⟩
      unfold ufFind
      rw [UnionFind_parent_mk, if_neg hroot]
      simp only [hp1, hI.2.1 x]
      rfl

/-- Specification of `union`: with the invariant and enough fuel the result
satisfies the invariant for the joined representative map. -/
theorem ufUnion_spec (fuel : Nat) (p rep : Nat → Nat) (B x y : Nat)
    (hI : Inv p rep B) (hf : B < fuel) :
    ∃ p', ufUnion fuel ⟨p⟩ x y = ⟨p'⟩ ∧ Inv p' (repJoin rep x y) (B + 1) := by
  obtain ⟨kx, hkx, hex⟩ := hI.2.2.2.2 x
  obtain ⟨p1, hp1, hI1⟩ := ufFind_spec kx fuel p rep B x hI hex (by omega)
  obtain ⟨ky, hky, hey⟩ := hI1.2.2.2.2 y
  obtain ⟨p2, hp2, hI2⟩ := ufFind_spec ky fuel p1 rep B y hI1 hey (by omega)
  by_cases hxy : rep x = rep y
  · refine ⟨p2, ?_, ?_⟩
    · unfold ufUnion
      simp only [hp1, hp2, hxy]
      rw [if_neg (by simp)]
    · refine Inv_congr ?_ (Inv_mono (by omega) hI2)
      intro z
      unfold repJoin
      by_cases hz : rep z = rep x
      · rw [if_pos hz, hz, hxy]
      · rw [if_neg hz]
  · refine ⟨updateFn p2 (rep x) (rep y), ?_, ?_⟩
    · unfold ufUnion
      simp only [hp1, hp2]
      rw [if_pos hxy]
      rfl
    · exact Inv_merge hI2 (hI2.1 x) (hI2.1 y) (hI2.2.2.2.1 x)
        (hI2.2.2.2.1 y) hxy

theorem repJoin_join (rep : Nat → Nat) (x y : Nat) :
    repJoin rep x y x = repJoin rep x y y := by
  unfold repJoin
  rw [if_pos rfl]
  by_cases h : rep y = rep x
  · rw [if_pos h]
  · rw [if_neg h]

theorem repJoin_mono (rep : Nat → Nat) (x y : Nat) {z w : Nat}
    (h : rep z = rep w) : repJoin rep x y z = repJoin rep x y w := by
  unfold repJoin
  rw [h]

theorem repJoin_cases (rep : Nat → Nat) (x y : Nat) {z w : Nat}
    (h : repJoin rep x y z = repJoin rep x y w) :
    rep z = rep w ∨ (rep z = rep x ∧ rep y = rep w) ∨
      (rep z = rep y ∧ rep x = rep w) := by
  unfold repJoin at h
  by_cases hz : rep z = rep x <;> by_cases hw : rep w = rep x
  · exact Or.inl (hz.trans hw.symm)
  · rw [if_pos hz, if_neg hw] at h
    exact Or.inr (Or.inl ⟨hz, h⟩)
  · rw [if_neg hz, if_pos hw] at h
    exact Or.inr (Or.inr ⟨h, hw.symm⟩)
  · rw [if_neg hz, if_neg hw] at h
    exact Or.inl h

/-! ### The clustering loop establishes exactly the confirmed linkage -/

/-- Invariant propagation along one inner row of the clustering loop. -/
theorem rowFold_spec (images : List (FileData × ImageInfo)) (t i : Nat) :
    ∀ (js : List Nat) (p rep : Nat → Nat) (B : Nat),
      (∀ j ∈ js, i < j ∧ j < images.length) →
      Inv p rep B →
      (∀ z w, rep z = rep w → Linked (ConfirmedRel images t) z w) →
      B + js.length ≤ images.length * images.length →
      ∃ p' rep' B',
        js.foldl (pairStep images t i) ⟨p⟩ = ⟨p'⟩ ∧
        Inv p' rep' B' ∧ B' ≤ B + js.length ∧
        (∀ z w, rep z = rep w → rep' z = rep' w) ∧
        (∀ z w, rep' z = rep' w → Linked (ConfirmedRel images t) z w) ∧
        (∀ j ∈ js, confirmsAt images t i j = true → rep' i = rep' j) := by
  intro js
  induction js with
  | nil =>
    intro p rep B hjs hI hSound hB
    exact ⟨p, rep, B, rfl, hI, by omega, fun z w h => h, hSound, by simp⟩
  | cons j js ih =>
    intro p rep B hjs hI hSound hB
    have hjlen : B + (js.length + 1) ≤ images.length * images.length := by
      simpa using hB
    simp only [List.foldl_cons]
    by_cases hc : confirmsAt images t i j = true
    · have hstep : pairStep images t i ⟨p⟩ j =
          ufUnion (FUEL images.length) ⟨p⟩ i j := by
        unfold pairStep
        rw [if_pos hc]
      have hfuel : B < FUEL images.length := by
        unfold FUEL
        omega
      obtain ⟨p1, hp1, hI1⟩ :=
        ufUnion_spec (FUEL images.length) p rep B i j hI hfuel
      rw [hstep, hp1]
      have hmem : j ∈ j :: js := List.mem_cons_self j js
      have hCR : ConfirmedRel images t i j :=
        ⟨(hjs j hmem).1, (hjs j hmem).2, hc⟩
      have hSound1 : ∀ z w, repJoin rep i j z = repJoin rep i j w →
          Linked (ConfirmedRel images t) z w := by
        intro z w h
        rcases repJoin_cases rep i j h with h | ⟨h1, h2⟩ | ⟨h1, h2⟩
        · exact hSound z w h
        · exact .trans (hSound z i h1) (.trans (.base hCR) (hSound j w h2))
        · exact .trans (hSound z j h1)
            (.trans (.symm (.base hCR)) (hSound i w h2))
      obtain ⟨p', rep', B', hfold, hI', hB', hmono', hSound', hconf'⟩ :=
        ih p1 (repJoin rep i j) (B + 1)
          (fun j' hj' => hjs j' (List.mem_cons_of_mem j hj'))
          hI1 hSound1 (by omega)
      refine ⟨p', rep', B', hfold, hI', by simp only [List.length_cons]; omega,
        ?_, hSound', ?_⟩
      · intro z w h
        exact hmono' z w (repJoin_mono rep i j h)
      · intro j' hj' hc'
        rcases List.mem_cons.mp hj' with rfl | hj'
        · exact hmono' i j' (repJoin_join rep i j')
        · exact hconf' j' hj' hc'
    · have hstep : pairStep images t i ⟨p⟩ j = ⟨p⟩ := by
        unfold pairStep
        rw [if_neg hc]
      rw [hstep]
      obtain ⟨p', rep', B', hfold, hI', hB', hmono', hSound', hconf'⟩ :=
        ih p rep B (fun j' hj' => hjs j' (List.mem_cons_of_mem j hj'))
          hI hSound (by omega)
      refine ⟨p', rep', B', hfold, hI', by simp only [List.length_cons]; omega,
        hmono', hSound', ?_⟩
      intro j' hj' hc'
      rcases List.mem_cons.mp hj' with rfl | hj'
      · exact absurd hc' hc
      · exact hconf' j' hj' hc'

/-- Invariant propagation along the outer loop of `find_similar_groups`. -/
theorem clusterLoop_spec (images : List (FileData × ImageInfo)) (t : Nat) :
    ∀ (is : List Nat) (p rep : Nat → Nat) (B : Nat),
      (∀ i ∈ is, i < images.length) →
      Inv p rep B →
      (∀ z w, rep z = rep w → Linked (ConfirmedRel images t) z w) →
      B + is.length * images.length ≤ images.length * images.length →
      ∃ p' rep' B',
        is.foldl
          (fun uf i =>
            rowFold images t ((ufFind (FUEL images.length) uf i).2) i) ⟨p⟩ =
          ⟨p'⟩ ∧
        Inv p' rep' B' ∧ B' ≤ B + is.length * images.length ∧
        (∀ z w, rep z = rep w → rep' z = rep' w) ∧
        (∀ z w, rep' z = rep' w → Linked (ConfirmedRel images t) z w) ∧
        (∀ i ∈ is, ∀ j, i < j → j < images.length →
          confirmsAt images t i j = true → rep' i = rep' j) := by
  intro is
  induction is with
  | nil =>
    intro p rep B his hI hSound hB
    exact ⟨p, rep, B, rfl, hI, by omega, fun z w h => h, hSound, by simp⟩
  | cons i is ih =>
    intro p rep B his hI hSound hB
    have hn : i < images.length := his i (List.mem_cons_self i is)
    have hBn : B + (is.length + 1) * images.length ≤
        images.length * images.length := by simpa using hB
    have hlen : (List.range' (i + 1) (images.length - (i + 1))).length =
        images.length - (i + 1) := by simp
    have hsub : images.length - (i + 1) ≤ images.length := Nat.sub_le _ _
    have hmul : (is.length + 1) * images.length =
        is.length * images.length + images.length := by ring
    rw [hmul] at hBn
    have hD : 0 ≤ is.length * images.length := Nat.zero_le _
    simp only [List.foldl_cons]
    obtain ⟨k, hk, hke⟩ := hI.2.2.2.2 i
    have hkf : k < FUEL images.length := by
      unfold FUEL
      nlinarith
    obtain ⟨p0, hp0, hI0⟩ := ufFind_spec k (FUEL images.length) p rep B i hI hke hkf
    rw [hp0]
    have hrow := rowFold_spec images t i
      (List.range' (i + 1) (images.length - (i + 1))) p0 rep B
      (fun j hj => by
        rw [List.mem_range'_1] at hj
        omega)
      hI0 hSound (by rw [hlen]; linarith)
    obtain ⟨p1, rep1, B1, hfold1, hI1, hB1, hmono1, hSound1, hconf1⟩ := hrow
    rw [hlen] at hB1
    have hrow' : rowFold images t ⟨p0⟩ i = ⟨p1⟩ := hfold1
    rw [hrow']
    obtain ⟨p', rep', B', hfold', hI', hB', hmono', hSound', hconf'⟩ :=
      ih p1 rep1 B1 (fun i' hi' => his i' (List.mem_cons_of_mem i hi'))
        hI1 hSound1 (by linarith)
    refine ⟨p', rep', B', hfold', hI',
      by simp only [List.length_cons]; rw [hmul]; linarith, ?_, hSound', ?_⟩
    · intro z w h
      exact hmono' z w (hmono1 z w h)
    · intro i' hi' j hij hjn hc
      rcases List.mem_cons.mp hi' with rfl | hi'
      · refine hmono' i' j (hconf1 j ?_ hc)
        rw [List.mem_range'_1]
        omega
      · exact hconf' i' hi' j hij hjn hc

/-- The state after the whole clustering loop: some representative map whose
classes are exactly the equivalence closure of the confirmed pairs. -/
theorem clusterFold_spec (images : List (FileData × ImageInfo)) (t : Nat) :
    ∃ p' rep' B', clusterFold images t = ⟨p'⟩ ∧ Inv p' rep' B' ∧
      B' < FUEL images.length ∧
      (∀ z w, rep' z = rep' w ↔ Linked (ConfirmedRel images t) z w) := by
  have hinit : ∀ z w, (fun x => x) z = (fun x => x) w →
      Linked (ConfirmedRel images t) z w := by
    intro z w h
    simp only at h
    rw [h]
    exact .refl w
  obtain ⟨p', rep', B', hfold, hI, hB, hmono, hSound, hconf⟩ :=
    clusterLoop_spec images t (List.range images.length)
      (fun x => x) (fun x => x) 0
      (fun i hi => List.mem_range.mp hi)
      Inv_init hinit
      (by simp [List.length_range])
  refine ⟨p', rep', B', hfold, hI, ?_, ?_⟩
  · unfold FUEL
    simp only [List.length_range] at hB
    omega
  · intro z w
    constructor
    · exact hSound z w
    · intro hL
      induction hL with
      | base h =>
        exact hconf _ (List.mem_range.mpr (Nat.lt_trans h.1 h.2.1)) _ h.1
          h.2.1 h.2.2
      | refl x => rfl
      | symm _ ihh => exact ihh.symm
      | trans _ _ ih1 ih2 => exact ih1.trans ih2

/-! ### The cluster dict: lookup characterisation -/

theorem selectRoot_cons (rep : Nat → Nat) (p : Nat × (FileData × ImageInfo))
    (L : List (Nat × (FileData × ImageInfo))) (r : Nat) :
    selectRoot rep (p :: L) r =
      if rep p.1 = r then p.2 :: selectRoot rep L r else selectRoot rep L r := by
  unfold selectRoot
  rw [List.filter_cons]
  by_cases h : rep p.1 = r
  · simp [h]
  · simp [h]

theorem clFold_cons (rep : Nat → Nat) (p : Nat × (FileData × ImageInfo))
    (L : List (Nat × (FileData × ImageInfo)))
    (acc : List (Nat × List (FileData × ImageInfo))) :
    clFold rep (p :: L) acc = clFold rep L (addCluster acc (rep p.1) p.2) :=
  rfl

theorem addCluster_lookup (r r' : Nat) (x : FileData × ImageInfo) :
    ∀ acc, clLookup r (addCluster acc r' x) =
      if r = r' then some ((clLookup r acc).getD [] ++ [x])
      else clLookup r acc := by
  intro acc
  induction acc with
  | nil =>
    show clLookup r [(r', [x])] = _
    by_cases h : r = r'
    · unfold clLookup
      rw [if_pos h.symm, if_pos h]
      rfl
    · unfold clLookup
      rw [if_neg (fun hc => h hc.symm), if_neg h]
      rfl
  | cons hd tl ih =>
    obtain ⟨k, g⟩ := hd
    show clLookup r (if k = r' then (k, g ++ [x]) :: tl
      else (k, g) :: addCluster tl r' x) = _
    by_cases hk : k = r'
    · rw [if_pos hk]
      by_cases hr : r = r'
      · have hkr : k = r := by rw [hk, hr]
        unfold clLookup
        rw [if_pos hkr, if_pos hr, if_pos hkr]
        rfl
      · have hkr : k ≠ r := fun hc => hr (hc ▸ hk)
        unfold clLookup
        rw [if_neg hkr, if_neg hr, if_neg hkr]
    · rw [if_neg hk]
      by_cases hkr : k = r
      · have hr : r ≠ r' := fun hc => hk (hkr.trans hc)
        unfold clLookup
        rw [if_pos hkr, if_neg hr, if_pos hkr]
      · unfold clLookup
        rw [if_neg hkr, ih]
        by_cases hr : r = r'
        · rw [if_pos hr, if_pos hr]
          unfold clLookup
          rw [if_neg hkr]
        · rw [if_neg hr, if_neg hr]
          unfold clLookup
          rw [if_neg hkr]

theorem clLookup_mem {r : Nat} {g : List (FileData × ImageInfo)} :
    ∀ {acc}, clLookup r acc = some g → (r, g) ∈ acc := by
  intro acc
  induction acc with
  | nil => intro h; cases h
  | cons hd tl ih =>
    obtain ⟨k, g'⟩ := hd
    intro h
    unfold clLookup at h
    by_cases hk : k = r
    · rw [if_pos hk] at h
      obtain rfl : g' = g := Option.some.inj h
      subst hk
      exact List.mem_cons_self _ _
    · rw [if_neg hk] at h
      exact List.mem_cons_of_mem _ (ih h)

theorem clFold_lookup (rep : Nat → Nat) (r : Nat) :
    ∀ (L : List (Nat × (FileData × ImageInfo))) acc,
      clLookup r (clFold rep L acc) =
        match clLookup r acc with
        | some g => some (g ++ selectRoot rep L r)
        | none =>
          if selectRoot rep L r = [] then none else some (selectRoot rep L r) := by
  intro L
  induction L with
  | nil =>
    intro acc
    show clLookup r acc = _
    cases hacc : clLookup r acc with
    | none => simp [selectRoot]
    | some g => simp [selectRoot]
  | cons p L ih =>
    intro acc
    rw [clFold_cons, ih, addCluster_lookup, selectRoot_cons]
    by_cases h : r = rep p.1
    · rw [if_pos h]
      simp only [if_pos (show rep p.1 = r from h.symm)]
      cases hacc : clLookup r acc with
      | none => simp
      | some g => simp
    · rw [if_neg h]
      simp only [if_neg (show rep p.1 ≠ r from fun hc => h hc.symm)]

theorem mem_keys_addCluster {k' r : Nat} {x : FileData × ImageInfo} :
    ∀ {acc}, k' ∈ (addCluster acc r x).map Prod.fst ↔
      k' ∈ acc.map Prod.fst ∨ k' = r := by
  intro acc
  induction acc with
  | nil => simp [addCluster]
  | cons hd tl ih =>
    obtain ⟨k, g⟩ := hd
    show k' ∈ (if k = r then (k, g ++ [x]) :: tl
      else (k, g) :: addCluster tl r x).map Prod.fst ↔ _
    by_cases hk : k = r
    · subst hk
      rw [if_pos rfl]
      simp only [List.map_cons, List.mem_cons]
      constructor
      · rintro (h | h)
        · exact Or.inl (Or.inl h)
        · exact Or.inl (Or.inr h)
      · rintro ((h | h) | h)
        · exact Or.inl h
        · exact Or.inr h
        · exact Or.inl h
    · rw [if_neg hk]
      simp only [List.map_cons, List.mem_cons, ih]
      tauto

theorem keys_nodup_addCluster {r : Nat} {x : FileData × ImageInfo} :
    ∀ {acc}, ((acc : List (Nat × List (FileData × ImageInfo))).map
        Prod.fst).Nodup →
      ((addCluster acc r x).map Prod.fst).Nodup := by
  intro acc
  induction acc with
  | nil => intro _; simp [addCluster]
  | cons hd tl ih =>
    obtain ⟨k, g⟩ := hd
    intro hnd
    simp only [List.map_cons, List.nodup_cons] at hnd
    show ((if k = r then (k, g ++ [x]) :: tl
      else (k, g) :: addCluster tl r x).map Prod.fst).Nodup
    by_cases hk : k = r
    · rw [if_pos hk]
      simp only [List.map_cons, List.nodup_cons]
      exact hnd
    · rw [if_neg hk]
      simp only [List.map_cons, List.nodup_cons]
      refine ⟨?_, ih hnd.2⟩
      rw [mem_keys_addCluster]
      rintro (h | h)
      · exact hnd.1 h
      · exact hk h

theorem keys_nodup_clFold (rep : Nat → Nat) :
    ∀ (L : List (Nat × (FileData × ImageInfo))) acc,
      (acc.map Prod.fst).Nodup → ((clFold rep L acc).map Prod.fst).Nodup := by
  intro L
  induction L with
  | nil => exact fun acc h => h
  | cons p L ih =>
    intro acc h
    rw [clFold_cons]
    exact ih _ (keys_nodup_addCluster h)

theorem clLookup_of_mem {r : Nat} {g : List (FileData × ImageInfo)} :
    ∀ {acc}, (acc.map Prod.fst).Nodup → (r, g) ∈ acc →
      clLookup r acc = some g := by
  intro acc
  induction acc with
  | nil => intro _ h; cases h
  | cons hd tl ih =>
    obtain ⟨k, g'⟩ := hd
    intro hnd hmem
    simp only [List.map_cons, List.nodup_cons] at hnd
    rcases List.mem_cons.mp hmem with heq | htl
    · rw [Prod.ext_iff] at heq
      obtain ⟨h1, h2⟩ := heq
      unfold clLookup
      rw [if_pos h1.symm]
      exact congrArg some h2.symm
    · have hkr : k ≠ r := by
        intro hc
        subst hc
        exact hnd.1 (List.mem_map.mpr ⟨(k, g), htl, rfl⟩)
      unfold clLookup
      rw [if_neg hkr]
      exact ih hnd.2 htl

/-- The state-threaded grouping loop computes the ghost cluster dict. -/
theorem buildFold_spec (fuel : Nat) (rep : Nat → Nat) :
    ∀ (L : List (Nat × (FileData × ImageInfo)))
      (acc : List (Nat × List (FileData × ImageInfo))) (p : Nat → Nat)
      (B : Nat), Inv p rep B → B < fuel →
      ∃ p'', (L.foldl (fun st pr =>
          let (root, uf') := ufFind fuel st.2 pr.1
          (addCluster st.1 root pr.2, uf')) (acc, ⟨p⟩)) =
        (clFold rep L acc, ⟨p''⟩) ∧ Inv p'' rep B := by
  intro L
  induction L with
  | nil => exact fun acc p B hI _ => ⟨p, rfl, hI⟩
  | cons pr L ih =>
    intro acc p B hI hf
    obtain ⟨k, hk, hke⟩ := hI.2.2.2.2 pr.1
    obtain ⟨p0, hp0, hI0⟩ := ufFind_spec k fuel p rep B pr.1 hI hke (by omega)
    simp only [List.foldl_cons, hp0]
    obtain ⟨p'', hfold, hI''⟩ := ih (addCluster acc (rep pr.1) pr.2) p0 B hI0 hf
    exact ⟨p'', hfold, hI''⟩

/-- Zeta-expanded form of `find_similar_groups`. -/
theorem find_similar_groups_eq (files : List FileData) (t : Nat) :
    find_similar_groups files t =
      if (imagesOf files).isEmpty then []
      else
        (((buildClusters (imagesOf files) (clusterFold (imagesOf files) t)
            (FUEL (imagesOf files).length)).1.map Prod.snd).filter
          (fun group => 1 < group.length)) := by
  unfold find_similar_groups
  rfl

/-- Master characterisation of `find_similar_groups`: there is a
representative map realising exactly the confirmed linkage, and the returned
groups are exactly the index-order buckets of its classes that have at least
two members. -/
theorem find_similar_groups_char (files : List FileData) (t : Nat) :
    ∃ rep : Nat → Nat,
      (∀ z w, rep z = rep w ↔ Linked (ConfirmedRel (imagesOf files) t) z w) ∧
      ∀ G, G ∈ find_similar_groups files t ↔
        (1 < G.length ∧ ∃ r, G = selectRoot rep (imagesOf files).enum r) := by
  obtain ⟨p', rep, B', hfold, hI, hB, hiff⟩ := clusterFold_spec (imagesOf files) t
  refine ⟨rep, hiff, ?_⟩
  intro G
  rw [find_similar_groups_eq]
  by_cases hemp : (imagesOf files).isEmpty
  · rw [if_pos hemp]
    simp only [List.not_mem_nil, false_iff]
    rintro ⟨hlen, r, hG⟩
    have hnil : imagesOf files = [] := List.isEmpty_iff.mp hemp
    rw [hnil] at hG
    simp only [List.enum_nil, selectRoot, List.filter_nil, List.map_nil] at hG
    rw [hG] at hlen
    simp at hlen
  · rw [if_neg hemp]
    obtain ⟨p'', hb, _⟩ := buildFold_spec (FUEL (imagesOf files).length) rep
      (imagesOf files).enum [] p' B' hI hB
    have hclusters :
        (buildClusters (imagesOf files) (clusterFold (imagesOf files) t)
          (FUEL (imagesOf files).length)).1 =
          clFold rep (imagesOf files).enum [] := by
      unfold buildClusters
      rw [hfold, hb]
    rw [hclusters]
    constructor
    · intro hmem
      rw [List.mem_filter] at hmem
      obtain ⟨hmap, hlen⟩ := hmem
      obtain ⟨⟨r, G'⟩, hrg, hsnd⟩ := List.mem_map.mp hmap
      have hsnd' : G' = G := hsnd
      subst hsnd'
      refine ⟨by simpa using hlen, r, ?_⟩
      have hlk : clLookup r (clFold rep (imagesOf files).enum []) = some G' :=
        clLookup_of_mem (keys_nodup_clFold rep _ [] (by simp)) hrg
      rw [clFold_lookup] at hlk
      simp only [clLookup] at hlk
      by_cases hes : selectRoot rep (imagesOf files).enum r = []
      · rw [if_pos hes] at hlk
        cases hlk
      · rw [if_neg hes] at hlk
        exact (Option.some.inj hlk).symm
    · rintro ⟨hlen, r, rfl⟩
      have hne : selectRoot rep (imagesOf files).enum r ≠ [] := by
        intro hc
        rw [hc] at hlen
        simp at hlen
      have hlk : clLookup r (clFold rep (imagesOf files).enum []) =
          some (selectRoot rep (imagesOf files).enum r) := by
        rw [clFold_lookup]
        simp only [clLookup]
        rw [if_neg hne]
      have hmem : (r, selectRoot rep (imagesOf files).enum r) ∈
          clFold rep (imagesOf files).enum [] := clLookup_mem hlk
      rw [List.mem_filter]
      exact ⟨List.mem_map.mpr ⟨_, hmem, rfl⟩, by simpa using hlen⟩

/-! ### Group membership facts -/

theorem imagesOf_mem {files : List FileData} {x : FileData × ImageInfo}
    (h : x ∈ imagesOf files) :
    x.1 ∈ files ∧ x.1.info = some x.2 ∧ x.2.has_degenerate_hash = false := by
  unfold imagesOf at h
  obtain ⟨f, hf, hfx⟩ := List.mem_filterMap.mp h
  cases hinfo : f.info with
  | none =>
    rw [hinfo] at hfx
    cases hfx
  | some i =>
    rw [hinfo] at hfx
    have hfx' : (if i.has_degenerate_hash = true then none
        else some (f, i)) = some x := hfx
    by_cases hdeg : i.has_degenerate_hash = true
    · rw [if_pos hdeg] at hfx'
      cases hfx'
    · rw [if_neg hdeg] at hfx'
      obtain rfl := Option.some.inj hfx'
      exact ⟨hf, hinfo, by simpa using hdeg⟩

theorem mem_selectRoot {rep : Nat → Nat} {L : List (Nat × (FileData × ImageInfo))}
    {r : Nat} {x : FileData × ImageInfo} :
    x ∈ selectRoot rep L r ↔ ∃ i, (i, x) ∈ L ∧ rep i = r := by
  unfold selectRoot
  simp only [List.mem_map, List.mem_filter, decide_eq_true_eq]
  constructor
  · rintro ⟨⟨i, y⟩, ⟨hm, hr⟩, rfl⟩
    exact ⟨i, hm, hr⟩
  · rintro ⟨i, hm, hr⟩
    exact ⟨(i, x), ⟨hm, hr⟩, rfl⟩

theorem one_lt_length_of_mem_ne {α : Type} {x y : α} {l : List α}
    (hx : x ∈ l) (hy : y ∈ l) (hne : x ≠ y) : 1 < l.length := by
  cases l with
  | nil => cases hx
  | cons a tl =>
    cases tl with
    | nil =>
      rw [List.mem_singleton] at hx hy
      exact absurd (hx.trans hy.symm) hne
    | cons b tl2 =>
      simp only [List.length_cons]
      omega

theorem confirmPair_candidate {a b : FileData × ImageInfo} {t : Nat}
    (h : confirmPair a b t = true) : (a.2.is_candidate b.2 t).1 = true := by
  rw [confirmPair_eq] at h
  by_cases hc : (a.2.is_candidate b.2 t).1 = true
  · exact hc
  · rw [if_pos hc] at h
    cases h

theorem is_candidate_true_dims {a b : ImageInfo} {t : Nat}
    (h : (a.is_candidate b t).1 = true) :
    a.width = b.width ∧ a.height = b.height ∧ a.n_frames = b.n_frames := by
  by_cases h1 : a.width = b.width
  · by_cases h2 : a.height = b.height
    · by_cases h3 : a.n_frames = b.n_frames
      · exact ⟨h1, h2, h3⟩
      · rw [is_candidate_mismatch a b t (Or.inr (Or.inr h3))] at h
        cases h
    · rw [is_candidate_mismatch a b t (Or.inr (Or.inl h2))] at h
      cases h
  · rw [is_candidate_mismatch a b t (Or.inl h1)] at h
    cases h

theorem confirm_key_eq {images : List (FileData × ImageInfo)} {t i j : Nat}
    (h : ConfirmedRel images t i j) :
    images[i]?.map dimKey = images[j]?.map dimKey := by
  have hc := h.2.2
  unfold confirmsAt at hc
  cases hi : images[i]? with
  | none =>
    rw [hi] at hc
    cases hc
  | some a =>
    cases hj : images[j]? with
    | none =>
      rw [hi, hj] at hc
      cases hc
    | some b =>
      rw [hi, hj] at hc
      obtain ⟨h1, h2, h3⟩ := is_candidate_true_dims (confirmPair_candidate hc)
      simp only [Option.map_some']
      unfold dimKey
      rw [h1, h2, h3]

theorem linked_key_eq {images : List (FileData × ImageInfo)} {t z w : Nat}
    (hL : Linked (ConfirmedRel images t) z w) :
    images[z]?.map dimKey = images[w]?.map dimKey := by
  induction hL with
  | base h => exact confirm_key_eq h
  | refl x => rfl
  | symm _ ih => exact ih.symm
  | trans _ _ ih1 ih2 => exact ih1.trans ih2

/-! ### Claims C1, C3, C6 -/

/-- C1 as stated is refuted: a descriptor whose average, gradient and color
hashes are all-zero but whose frequency hash is not has three of its four
hashes zero, yet the code's degeneracy test (which never consults the color
hash) does not fire, and such an image does appear in a returned group. -/
theorem C1_counterexample : ¬ C1ClaimStatement := by
  intro h
  have hG : find_similar_groups [cxFileA, cxFileB] 0 =
      [[(cxFileA, cxInfo), (cxFileB, cxInfo)]] := by decide
  exact absurd rfl
    (h [cxFileA, cxFileB] 0 cxFileA cxInfo (List.mem_cons_self _ _) rfl
      (by decide) [(cxFileA, cxInfo), (cxFileB, cxInfo)]
      (by rw [hG]; exact List.mem_cons_self _ _)
      (cxFileA, cxInfo) (List.mem_cons_self _ _))

/-- C1 (amended): an image whose frequency, average and gradient hashes all
equal the canonical all-zero pattern — the three hashes
`_has_degenerate_hash` actually consults; the color hash plays no role — is
excluded from clustering entirely: it appears in no group returned by
`find_similar_groups`, even when another file shares the same zero
hashes. -/
theorem C1_degenerate_exclusion (files : List FileData) (t : Nat)
    (f : FileData) (i : ImageInfo) (_hmem : f ∈ files)
    (hinfo : f.info = some i) (hdeg : i.has_degenerate_hash = true) :
    ∀ G ∈ find_similar_groups files t, ∀ x ∈ G, x.1 ≠ f := by
  intro G hG x hx hxf
  obtain ⟨rep, hrep, hiff⟩ := find_similar_groups_char files t
  obtain ⟨hlen, r, rfl⟩ := (hiff G).mp hG
  obtain ⟨ix, hix, hrix⟩ := mem_selectRoot.mp hx
  have himg : x ∈ imagesOf files :=
    List.getElem?_mem (List.mk_mem_enum_iff_getElem?.mp hix)
  obtain ⟨hf, hfi, hnd⟩ := imagesOf_mem himg
  rw [hxf, hinfo] at hfi
  obtain rfl := Option.some.inj hfi
  rw [hdeg] at hnd
  cases hnd

/-- Witness for the amended C1: the concrete degenerate file lands in no
group even though a second file shares its zero hashes. -/
theorem C1_degenerate_exclusion_witness :
    degInfo.has_degenerate_hash = true ∧
    ((degFile, degInfo) ∈
        (find_similar_groups [degFile, degFile2] 0).flatten → False) := by
  refine ⟨by decide, ?_⟩
  intro h
  obtain ⟨G, hG, hxG⟩ := List.mem_flatten.mp h
  exact C1_degenerate_exclusion [degFile, degFile2] 0 degFile degInfo
    (List.mem_cons_self _ _) rfl (by decide) G hG (degFile, degInfo) hxG rfl

/-- C3: a dimension or frame-count mismatch makes `is_candidate` return the
categorical `(false, 0, 999)` regardless of hash distances and threshold,
and consequently every two members of any returned group agree on width,
height and frame count — a mismatched pair never shares a group. -/
theorem C3_dimension_gate :
    (∀ (a b : ImageInfo) (t : Nat),
      a.width ≠ b.width ∨ a.height ≠ b.height ∨ a.n_frames ≠ b.n_frames →
      a.is_candidate b t = (false, 0, 999)) ∧
    (∀ (files : List FileData) (t : Nat),
      ∀ G ∈ find_similar_groups files t, ∀ x ∈ G, ∀ y ∈ G,
        x.2.width = y.2.width ∧ x.2.height = y.2.height ∧
          x.2.n_frames = y.2.n_frames) := by
  constructor
  · exact is_candidate_mismatch
  · intro files t G hG x hx y hy
    obtain ⟨rep, hrep, hiff⟩ := find_similar_groups_char files t
    obtain ⟨hlen, r, rfl⟩ := (hiff G).mp hG
    obtain ⟨ix, hix, hrix⟩ := mem_selectRoot.mp hx
    obtain ⟨iy, hiy, hriy⟩ := mem_selectRoot.mp hy
    have hL : Linked (ConfirmedRel (imagesOf files) t) ix iy :=
      (hrep ix iy).mp (hrix.trans hriy.symm)
    have hkey := linked_key_eq hL
    rw [List.mk_mem_enum_iff_getElem?.mp hix,
      List.mk_mem_enum_iff_getElem?.mp hiy] at hkey
    simp only [Option.map_some'] at hkey
    have hkey' := Option.some.inj hkey
    have h1 := congrArg (fun q : Nat × Nat × Nat => q.1) hkey'
    have h2 := congrArg (fun q : Nat × Nat × Nat => q.2.1) hkey'
    have h3 := congrArg (fun q : Nat × Nat × Nat => q.2.2) hkey'
    exact ⟨h1, h2, h3⟩

/-- Witness for C3 at a concrete mismatched pair. -/
theorem C3_dimension_gate_witness :
    cxInfo.is_candidate
      ⟨[true], [false], [false], [false], 11, 10, 1, "m1"⟩ 7 =
      (false, 0, 999) :=
  C3_dimension_gate.1 cxInfo
    ⟨[true], [false], [false], [false], 11, 10, 1, "m1"⟩ 7
    (Or.inl (by decide))

/-- C6: if the loop's decision confirms the pairs `(A, B)` and `(B, C)`
among the clustered descriptors, then `find_similar_groups` returns `A`,
`B` and `C` in one common group, even when `(A, C)` is never directly
confirmed. -/
theorem C6_transitive_grouping (files : List FileData) (t : Nat)
    (a b c : Nat) (A B C : FileData × ImageInfo)
    (hA : (imagesOf files)[a]? = some A)
    (hB : (imagesOf files)[b]? = some B)
    (hC : (imagesOf files)[c]? = some C)
    (hab : ConfirmedRel (imagesOf files) t a b ∨
      ConfirmedRel (imagesOf files) t b a)
    (hbc : ConfirmedRel (imagesOf files) t b c ∨
      ConfirmedRel (imagesOf files) t c b) :
    ∃ G ∈ find_similar_groups files t, A ∈ G ∧ B ∈ G ∧ C ∈ G := by
  obtain ⟨rep, hrep, hiff⟩ := find_similar_groups_char files t
  have hLab : Linked (ConfirmedRel (imagesOf files) t) a b := by
    rcases hab with h | h
    · exact .base h
    · exact .symm (.base h)
  have hLbc : Linked (ConfirmedRel (imagesOf files) t) b c := by
    rcases hbc with h | h
    · exact .base h
    · exact .symm (.base h)
  have hrab : rep a = rep b := (hrep a b).mpr hLab
  have hrbc : rep b = rep c := (hrep b c).mpr hLbc
  have hanb : a ≠ b := by
    rcases hab with h | h
    · exact Nat.ne_of_lt h.1
    · exact (Nat.ne_of_lt h.1).symm
  have hAmem : A ∈ selectRoot rep (imagesOf files).enum (rep a) :=
    mem_selectRoot.mpr ⟨a, List.mk_mem_enum_iff_getElem?.mpr hA, rfl⟩
  have hBmem : B ∈ selectRoot rep (imagesOf files).enum (rep a) :=
    mem_selectRoot.mpr ⟨b, List.mk_mem_enum_iff_getElem?.mpr hB, hrab.symm⟩
  have hCmem : C ∈ selectRoot rep (imagesOf files).enum (rep a) :=
    mem_selectRoot.mpr ⟨c, List.mk_mem_enum_iff_getElem?.mpr hC,
      (hrab.trans hrbc).symm⟩
  have hfa : ((a, A) : Nat × (FileData × ImageInfo)) ∈
      (imagesOf files).enum.filter (fun p => decide (rep p.1 = rep a)) :=
    List.mem_filter.mpr ⟨List.mk_mem_enum_iff_getElem?.mpr hA, by simp⟩
  have hfb : ((b, B) : Nat × (FileData × ImageInfo)) ∈
      (imagesOf files).enum.filter (fun p => decide (rep p.1 = rep a)) :=
    List.mem_filter.mpr ⟨List.mk_mem_enum_iff_getElem?.mpr hB,
      by simp [hrab.symm]⟩
  have hlen : 1 < (selectRoot rep (imagesOf files).enum (rep a)).length := by
    unfold selectRoot
    rw [List.length_map]
    exact one_lt_length_of_mem_ne hfa hfb
      (fun hc => hanb (congrArg Prod.fst hc))
  exact ⟨selectRoot rep (imagesOf files).enum (rep a),
    (hiff _).mpr ⟨hlen, rep a, rfl⟩, hAmem, hBmem, hCmem⟩

/-- Witness for C6: three concrete pairwise-linked files end up in one
group. -/
theorem C6_transitive_grouping_witness :
    (cxFileA, cxInfo) ∈
      (find_similar_groups [cxFileA, cxFileB, cxFileC] 0).flatten ∧
    (cxFileC, cxInfo) ∈
      (find_similar_groups [cxFileA, cxFileB, cxFileC] 0).flatten := by
  obtain ⟨G, hG, hA, hB, hC⟩ :=
    C6_transitive_grouping [cxFileA, cxFileB, cxFileC] 0 0 1 2
      (cxFileA, cxInfo) (cxFileB, cxInfo) (cxFileC, cxInfo)
      (by decide) (by decide) (by decide)
      (Or.inl ⟨by decide, by decide, by decide⟩)
      (Or.inl ⟨by decide, by decide, by decide⟩)
  exact ⟨List.mem_flatten.mpr ⟨G, hG, hA⟩, List.mem_flatten.mpr ⟨G, hG, hC⟩⟩

/-! ### Sorting by case-folded name -/

theorem charListLe_refl : ∀ l : List Char, charListLe l l = true := by
  intro l
  induction l with
  | nil => rfl
  | cons a as ih =>
    unfold charListLe
    rw [if_neg (Nat.lt_irrefl a.val.toNat), if_neg (Nat.lt_irrefl a.val.toNat)]
    exact ih

theorem charListLe_total : ∀ a b : List Char,
    charListLe a b = true ∨ charListLe b a = true := by
  intro a
  induction a with
  | nil => intro b; exact Or.inl rfl
  | cons x as ih =>
    intro b
    cases b with
    | nil => exact Or.inr rfl
    | cons y bs =>
      unfold charListLe
      rcases Nat.lt_trichotomy x.val.toNat y.val.toNat with h | h | h
      · left
        rw [if_pos h]
      · have h1 : ¬ x.val.toNat < y.val.toNat := by
          rw [h]
          exact Nat.lt_irrefl _
        have h2 : ¬ y.val.toNat < x.val.toNat := by
          rw [h]
          exact Nat.lt_irrefl _
        rw [if_neg h1, if_neg h2, if_neg h2, if_neg h1]
        exact ih bs
      · right
        rw [if_pos h]

theorem charListLe_trans : ∀ a b c : List Char, charListLe a b = true →
    charListLe b c = true → charListLe a c = true := by
  intro a
  induction a with
  | nil => intro b c _ _; rfl
  | cons x as ih =>
    intro b c hab hbc
    cases b with
    | nil =>
      rw [show charListLe (x :: as) [] = false from rfl] at hab
      cases hab
    | cons y bs =>
      cases c with
      | nil =>
        rw [show charListLe (y :: bs) [] = false from rfl] at hbc
        cases hbc
      | cons z cs =>
        unfold charListLe at hab hbc ⊢
        by_cases hxy : x.val.toNat < y.val.toNat
        · by_cases hyz : y.val.toNat < z.val.toNat
          · rw [if_pos (Nat.lt_trans hxy hyz)]
          · by_cases hzy : z.val.toNat < y.val.toNat
            · rw [if_neg hyz, if_pos hzy] at hbc
              cases hbc
            · have hyz' : y.val.toNat = z.val.toNat :=
                Nat.le_antisymm (Nat.not_lt.mp hzy) (Nat.not_lt.mp hyz)
              rw [if_pos (hyz' ▸ hxy)]
        · by_cases hyx : y.val.toNat < x.val.toNat
          · rw [if_neg hxy, if_pos hyx] at hab
            cases hab
          · have hxy' : x.val.toNat = y.val.toNat :=
              Nat.le_antisymm (Nat.not_lt.mp hyx) (Nat.not_lt.mp hxy)
            rw [if_neg hxy, if_neg hyx] at hab
            by_cases hyz : y.val.toNat < z.val.toNat
            · rw [if_pos (Nat.lt_of_le_of_lt (Nat.le_of_eq hxy') hyz)]
            · by_cases hzy : z.val.toNat < y.val.toNat
              · rw [if_neg hyz, if_pos hzy] at hbc
                cases hbc
              · have hyz' : y.val.toNat = z.val.toNat :=
                  Nat.le_antisymm (Nat.not_lt.mp hzy) (Nat.not_lt.mp hyz)
                rw [if_neg hyz, if_neg hzy] at hbc
                have hxz : ¬ x.val.toNat < z.val.toNat := by
                  rw [hxy', hyz']
                  exact Nat.lt_irrefl _
                have hzx : ¬ z.val.toNat < x.val.toNat := by
                  rw [hxy', hyz']
                  exact Nat.lt_irrefl _
                rw [if_neg hxz, if_neg hzx]
                exact ih bs cs hab hbc

theorem insertByName_mem (x : FileData × ImageInfo)
    (l : List (FileData × ImageInfo)) (y : FileData × ImageInfo) :
    y ∈ insertByName x l ↔ y = x ∨ y ∈ l := by
  induction l with
  | nil => simp [insertByName]
  | cons a tl ih =>
    unfold insertByName
    by_cases h : charListLe (sortKey x) (sortKey a) = true
    · rw [if_pos h]
      simp only [List.mem_cons]
    · rw [if_neg h]
      simp only [List.mem_cons, ih]
      tauto

theorem insertByName_length (x : FileData × ImageInfo)
    (l : List (FileData × ImageInfo)) :
    (insertByName x l).length = l.length + 1 := by
  induction l with
  | nil => rfl
  | cons a tl ih =>
    unfold insertByName
    by_cases h : charListLe (sortKey x) (sortKey a) = true
    · rw [if_pos h]
      simp
    · rw [if_neg h]
      simp only [List.length_cons, ih]

theorem sortByName_mem (l : List (FileData × ImageInfo))
    (y : FileData × ImageInfo) : y ∈ sortByName l ↔ y ∈ l := by
  induction l with
  | nil => simp [sortByName]
  | cons a tl ih =>
    unfold sortByName
    rw [insertByName_mem]
    simp [List.mem_cons, ih]

theorem sortByName_length (l : List (FileData × ImageInfo)) :
    (sortByName l).length = l.length := by
  induction l with
  | nil => rfl
  | cons a tl ih =>
    unfold sortByName
    rw [insertByName_length, ih, List.length_cons]

theorem insertByName_pairwise (x : FileData × ImageInfo)
    {l : List (FileData × ImageInfo)}
    (h : l.Pairwise (fun a b => charListLe (sortKey a) (sortKey b) = true)) :
    (insertByName x l).Pairwise
      (fun a b => charListLe (sortKey a) (sortKey b) = true) := by
  induction l with
  | nil => simp [insertByName]
  | cons a tl ih =>
    rw [List.pairwise_cons] at h
    obtain ⟨h1, h2⟩ := h
    unfold insertByName
    by_cases hx : charListLe (sortKey x) (sortKey a) = true
    · rw [if_pos hx, List.pairwise_cons]
      refine ⟨?_, List.pairwise_cons.mpr ⟨h1, h2⟩⟩
      intro b hb
      rcases List.mem_cons.mp hb with rfl | hb
      · exact hx
      · exact charListLe_trans _ _ _ hx (h1 b hb)
    · rw [if_neg hx, List.pairwise_cons]
      refine ⟨?_, ih h2⟩
      intro b hb
      rcases (insertByName_mem x tl b).mp hb with rfl | hb
      · rcases charListLe_total (sortKey b) (sortKey a) with hh | hh
        · exact absurd hh hx
        · exact hh
      · exact h1 b hb

theorem sortByName_pairwise (l : List (FileData × ImageInfo)) :
    (sortByName l).Pairwise
      (fun a b => charListLe (sortKey a) (sortKey b) = true) := by
  induction l with
  | nil => exact List.Pairwise.nil
  | cons a tl ih =>
    unfold sortByName
    exact insertByName_pairwise a ih

/-- C8: the file kept by `deduplicate` — the head of the stable sort by
case-folded name — has the case-insensitive lexicographically minimal name
of its group, and the rest of the group is exactly the removal list. -/
theorem C8_canonical_selection (group : List (FileData × ImageInfo))
    (keep : FileData × ImageInfo) (remove : List (FileData × ImageInfo))
    (h : sortByName group = keep :: remove) :
    (∀ y ∈ group, charListLe (sortKey keep) (sortKey y) = true) ∧
    (∀ y, y ∈ group ↔ y ∈ keep :: remove) ∧
    group.length = remove.length + 1 := by
  have hpw := sortByName_pairwise group
  rw [h, List.pairwise_cons] at hpw
  refine ⟨?_, ?_, ?_⟩
  · intro y hy
    have hmem : y ∈ sortByName group := (sortByName_mem group y).mpr hy
    rw [h] at hmem
    rcases List.mem_cons.mp hmem with rfl | htl
    · exact charListLe_refl _
    · exact hpw.1 y htl
  · intro y
    rw [← sortByName_mem group y, h]
  · have hlen := sortByName_length group
    rw [h, List.length_cons] at hlen
    omega

/-- Witness for C8 on the `["Zeta.png", "apple.png", "Banana.png"]`
example: the kept file is `"apple.png"`. -/
theorem C8_canonical_selection_witness :
    sortByName [(fZeta, znInfo), (fApple, znInfo), (fBanana, znInfo)] =
      [(fApple, znInfo), (fBanana, znInfo), (fZeta, znInfo)] ∧
    charListLe (sortKey (fApple, znInfo)) (sortKey (fZeta, znInfo)) = true := by
  have hsort : sortByName [(fZeta, znInfo), (fApple, znInfo),
      (fBanana, znInfo)] =
      [(fApple, znInfo), (fBanana, znInfo), (fZeta, znInfo)] := by decide
  exact ⟨hsort,
    (C8_canonical_selection _ _ _ hsort).1 (fZeta, znInfo) (by decide)⟩

/-! ### Dry-run and exception behaviour of `deduplicate` -/

theorem dedupStep_nil (t : Nat) (dry : Bool) (st : Nat × List String)
    (g : List (FileData × ImageInfo)) (h1 : sortByName g = []) :
    dedupStep t dry st g = .error () := by
  unfold dedupStep
  rw [h1]

theorem dedupStep_err (t : Nat) (dry : Bool) (st : Nat × List String)
    (g : List (FileData × ImageInfo)) {keep : FileData × ImageInfo}
    {remove : List (FileData × ImageInfo)}
    (h1 : sortByName g = keep :: remove)
    (h2 : minAgreements keep remove t = none) :
    dedupStep t dry st g = .error () := by
  unfold dedupStep
  rw [h1]
  show (match minAgreements keep remove t with
    | none => (Except.error () : Except Unit (Nat × List String))
    | some _ => if dry then Except.ok st
        else Except.ok (st.1 + remove.length,
          st.2 ++ remove.map (fun p : FileData × ImageInfo => p.1.name))) =
    Except.error ()
  rw [h2]

theorem dedupStep_ok (t : Nat) (dry : Bool) (st : Nat × List String)
    (g : List (FileData × ImageInfo)) {keep : FileData × ImageInfo}
    {remove : List (FileData × ImageInfo)} {v : Nat}
    (h1 : sortByName g = keep :: remove)
    (h2 : minAgreements keep remove t = some v) :
    dedupStep t dry st g =
      if dry then .ok st
      else .ok (st.1 + remove.length,
        st.2 ++ remove.map (fun p => p.1.name)) := by
  unfold dedupStep
  rw [h1]
  show (match minAgreements keep remove t with
    | none => (Except.error () : Except Unit (Nat × List String))
    | some _ => if dry then Except.ok st
        else Except.ok (st.1 + remove.length,
          st.2 ++ remove.map (fun p : FileData × ImageInfo => p.1.name))) = _
  rw [h2]

theorem dedupStep_dry {t : Nat} {st st' : Nat × List String}
    {g : List (FileData × ImageInfo)}
    (h : dedupStep t true st g = .ok st') : st' = st := by
  cases h1 : sortByName g with
  | nil =>
    rw [dedupStep_nil t true st g h1] at h
    cases h
  | cons keep remove =>
    cases h2 : minAgreements keep remove t with
    | none =>
      rw [dedupStep_err t true st g h1 h2] at h
      cases h
    | some v =>
      rw [dedupStep_ok t true st g h1 h2] at h
      rw [if_pos rfl] at h
      exact (Except.ok.inj h).symm

theorem dedupGo_dry_deleted (t : Nat) :
    ∀ (gs : List (List (FileData × ImageInfo))) (st : Nat × List String),
      (dedupGo t true gs st).2 = st.2 := by
  intro gs
  induction gs with
  | nil => intro st; rfl
  | cons g gs ih =>
    intro st
    unfold dedupGo
    cases hs : dedupStep t true st g with
    | error e => rfl
    | ok st' =>
      obtain rfl := dedupStep_dry hs
      exact ih st'

theorem dedupGo_dry_live (t : Nat) :
    ∀ (gs : List (List (FileData × ImageInfo))) (st1 st2 : Nat × List String),
      ((dedupGo t true gs st1).1 = .error () ∧
        (dedupGo t false gs st2).1 = .error ()) ∨
      ((dedupGo t true gs st1).1 = .ok st1.1 ∧
        (dedupGo t false gs st2).1 =
          .ok (st2.1 + (gs.map (fun g => g.length - 1)).sum)) := by
  intro gs
  induction gs with
  | nil =>
    intro st1 st2
    right
    exact ⟨rfl, by simp [dedupGo]⟩
  | cons g gs ih =>
    intro st1 st2
    unfold dedupGo
    cases h1 : sortByName g with
    | nil =>
      left
      rw [dedupStep_nil t true st1 g h1, dedupStep_nil t false st2 g h1]
      exact ⟨rfl, rfl⟩
    | cons keep remove =>
      cases h2 : minAgreements keep remove t with
      | none =>
        left
        rw [dedupStep_err t true st1 g h1 h2, dedupStep_err t false st2 g h1 h2]
        exact ⟨rfl, rfl⟩
      | some v =>
        have hsd : dedupStep t true st1 g = .ok st1 := by
          rw [dedupStep_ok t true st1 g h1 h2]
          rw [if_pos rfl]
        have hsl : dedupStep t false st2 g =
            .ok (st2.1 + remove.length,
              st2.2 ++ remove.map (fun p => p.1.name)) := by
          rw [dedupStep_ok t false st2 g h1 h2]
          rw [if_neg (by simp)]
        rw [hsd, hsl]
        have hrem : remove.length = g.length - 1 := by
          have hlen := sortByName_length g
          rw [h1, List.length_cons] at hlen
          omega
        rcases ih st1 (st2.1 + remove.length,
            st2.2 ++ remove.map (fun p => p.1.name)) with ⟨e1, e2⟩ | ⟨o1, o2⟩
        · exact Or.inl ⟨e1, e2⟩
        · refine Or.inr ⟨o1, ?_⟩
          rw [o2]
          simp only [List.map_cons, List.sum_cons]
          congr 1
          omega

/-- C9: a dry run deletes nothing from disk and returns the same
`(groups, removals)` outcome — counts, or the same uncaught exception — as
the live run over the same groups; the removal count equals the sum of
`group size - 1`. -/
theorem C9_dry_run_no_op (groups : List (List (FileData × ImageInfo)))
    (t : Nat) :
    (deduplicate groups true t).2 = [] ∧
    (deduplicate groups true t).1 = (deduplicate groups false t).1 ∧
    (∀ removed, (deduplicate groups true t).1 = .ok removed →
      removed = (groups.length, (groups.map (fun g => g.length - 1)).sum)) := by
  have hdel := dedupGo_dry_deleted t groups (0, [])
  refine ⟨?_, ?_, ?_⟩
  · unfold deduplicate
    cases hgo : dedupGo t true groups (0, []) with
    | mk r deleted =>
      rw [hgo] at hdel
      cases r with
      | error e => exact hdel
      | ok removed => exact hdel
  · rcases dedupGo_dry_live t groups (0, []) (0, []) with ⟨e1, e2⟩ | ⟨o1, o2⟩
    · unfold deduplicate
      cases hgo1 : dedupGo t true groups (0, []) with
      | mk r1 d1 =>
        cases hgo2 : dedupGo t false groups (0, []) with
        | mk r2 d2 =>
          rw [hgo1] at e1
          rw [hgo2] at e2
          simp only at e1 e2
          rw [e1, e2]
    · unfold deduplicate
      cases hgo1 : dedupGo t true groups (0, []) with
      | mk r1 d1 =>
        cases hgo2 : dedupGo t false groups (0, []) with
        | mk r2 d2 =>
          have hz : ((0, ([] : List String)).1 +
              (groups.map (fun g => g.length - 1)).sum) =
              (groups.map (fun g => g.length - 1)).sum := by simp
          rw [hz] at o2
          rw [hgo1] at o1
          rw [hgo2] at o2
          simp only at o1 o2
          rw [o1, o2]
          rfl
  · intro removed hrem
    unfold deduplicate at hrem
    cases hgo : dedupGo t true groups (0, []) with
    | mk r deleted =>
      rw [hgo] at hrem
      cases r with
      | error e => cases hrem
      | ok n => exact (Except.ok.inj hrem).symm

/-- Witness for C9 at a concrete one-group run. -/
theorem C9_dry_run_no_op_witness :
    (deduplicate [[(cxFileA, cxInfo), (cxFileB, cxInfo)]] true 0).2 = [] ∧
    ((1 : Nat), (1 : Nat)) =
      (([[(cxFileA, cxInfo), (cxFileB, cxInfo)]] :
          List (List (FileData × ImageInfo))).length,
        (([[(cxFileA, cxInfo), (cxFileB, cxInfo)]] :
          List (List (FileData × ImageInfo))).map
            (fun g => g.length - 1)).sum) :=
  ⟨(C9_dry_run_no_op [[(cxFileA, cxInfo), (cxFileB, cxInfo)]] 0).1,
   (C9_dry_run_no_op [[(cxFileA, cxInfo), (cxFileB, cxInfo)]] 0).2.2
     (1, 1) rfl⟩

/-- C10: every group returned by `find_similar_groups` has at least two
members, so `deduplicate`'s per-group computation — `sorted_group[0]`, the
non-empty removal tail, and the `min()` over the per-removed-file agreement
counts — never raises. -/
theorem C10_groups_never_raise (files : List FileData) (t : Nat) :
    ∀ G ∈ find_similar_groups files t, 1 < G.length ∧
      ∀ (t' : Nat) (dry : Bool) (st : Nat × List String),
        dedupStep t' dry st G ≠ .error () := by
  intro G hG
  obtain ⟨rep, hrep, hiff⟩ := find_similar_groups_char files t
  obtain ⟨hlen, r, hGsel⟩ := (hiff G).mp hG
  refine ⟨hlen, ?_⟩
  intro t' dry st
  have hslen : (sortByName G).length = G.length := sortByName_length G
  cases hs : sortByName G with
  | nil =>
    rw [hs] at hslen
    simp only [List.length_nil] at hslen
    omega
  | cons keep remove =>
    cases hr : remove with
    | nil =>
      rw [hs, hr] at hslen
      simp only [List.length_cons, List.length_nil] at hslen
      omega
    | cons y ys =>
      subst hr
      intro hcon
      have hvex : ∃ v, minAgreements keep (y :: ys) t' = some v := ⟨_, rfl⟩
      obtain ⟨v, hv⟩ := hvex
      rw [dedupStep_ok t' dry st G hs hv] at hcon
      cases dry with
      | true =>
        rw [if_pos rfl] at hcon
        cases hcon
      | false =>
        rw [if_neg (by simp)] at hcon
        cases hcon

/-- Witness for C10 at a concrete returned group. -/
theorem C10_groups_never_raise_witness :
    dedupStep 3 true (0, []) [(cxFileA, cxInfo), (cxFileB, cxInfo)] ≠
      .error () :=
  (C10_groups_never_raise [cxFileA, cxFileB] 0
    [(cxFileA, cxInfo), (cxFileB, cxInfo)] (by decide)).2 3 true (0, [])

end Dedup
